/-
Verification of the NAB corpus data-management layer (nab/corpus.py).

We shallowly embed the two classes of the module:

  * `DataFile` — wraps one CSV file's in-memory table.  A pandas
    `DataFrame` is modelled as an ordered list of named columns
    (`Frame`), each column being the list of its cell values.  Cell
    values are kept abstract via a type parameter `α`; the timestamp
    column, whose values are compared in `getTimestampRange`, is
    instantiated at `Int`.

  * `Corpus` — a dictionary from forward-slash relative paths to
    `DataFile`s.  A Python `dict` is modelled as an association list
    with insert-or-replace semantics (`dictInsert` / `dictLookup`);
    iteration order is the list order, matching insertion order of a
    Python dict.

File-system effects (reading a CSV, writing one, creating directories)
are abstracted: the content of the file system is a function
`contents : String → Frame α` giving the parsed table at each path, the
list of files under a root is passed in explicitly (the collaborator
`absoluteFilePaths`), and directory existence is a predicate
`isdir : String → Bool`.  The `write`/`persist` flags only trigger
serialisation back to disk in the original; they do not affect the
in-memory state, so they are carried as (ignored) arguments.

A Python `KeyError` escaping `Corpus.addColumn` is modelled by
`Except Unit`.  `Corpus.copy` returning `None` is modelled by `Option`.
-/
import Mathlib

namespace NabCorpus

/-! ## Character-list string helpers

Python string operations used by the source (`in`, `.index`, `.strip`,
`.replace`, `os.path.split`) are modelled on `List Char`. -/

/-- `listPrefixOfC needle hay` is true when `needle` is an initial
segment of `hay` (character-wise). -/
def listPrefixOfC : List Char → List Char → Bool
  | [], _ => true
  | _ :: _, [] => false
  | a :: as, b :: bs => a = b && listPrefixOfC as bs

/-- First index at which `needle` occurs inside `hay`, as Python
`hay.index(needle)`; `none` models the `ValueError` when absent. -/
def strIndexC (hay needle : List Char) : Option Nat :=
  if listPrefixOfC needle hay then some 0
  else
    match hay with
    | [] => none
    | _ :: t => (strIndexC t needle).map (· + 1)

/-- Python's substring test `needle in hay`. -/
def strContains (hay needle : String) : Bool :=
  (strIndexC hay.toList needle.toList).isSome

/-- Python `s.strip("/")`: drop `/` characters from both ends. -/
def stripSepC (s : List Char) : List Char :=
  ((s.dropWhile (· = '/')).reverse.dropWhile (· = '/')).reverse

/-- Python `s.replace(os.path.sep, "/")`.  On the POSIX host modelled
here `os.path.sep` is already `/`, so the replacement maps `/` to `/`,
character by character. -/
def sepToSlashC (s : List Char) : List Char :=
  s.map (fun c => if c = '/' then '/' else c)

/-- `os.path.split(p)[1]`: everything after the last `/`. -/
def fileNameOf (p : String) : String :=
  ⟨(p.toList.reverse.takeWhile (· ≠ '/')).reverse⟩

/-! ## DataFile -/

/-- A pandas `DataFrame`: ordered sequence of named columns.  Each
column is a name paired with its cells, one cell per row. -/
structure Frame (α : Type) where
  cols : List (String × List α)
  deriving Repr, DecidableEq

/-- Look a column up by name (first match, as pandas column access on
unique names). -/
def colLookup (name : String) : List (String × List α) → Option (List α)
  | [] => none
  | c :: cs => if c.1 = name then some c.2 else colLookup name cs

/-- `df[name] = vals`: replace the column in place when the name is
already present, otherwise append it after the existing columns. -/
def setColAux (name : String) (vals : List α) :
    List (String × List α) → List (String × List α)
  | [] => [(name, vals)]
  | c :: cs => if c.1 = name then (name, vals) :: cs else c :: setColAux name vals cs

/-- `df[name] = vals` on a frame. -/
def Frame.setCol (f : Frame α) (name : String) (vals : List α) : Frame α :=
  ⟨setColAux name vals f.cols⟩

/-- `if name in df: del df[name]` on a frame. -/
def Frame.delCol (f : Frame α) (name : String) : Frame α :=
  ⟨f.cols.filter (fun c => c.1 ≠ name)⟩

/-- Column access `df[name]` on a frame. -/
def Frame.getCol (f : Frame α) (name : String) : Option (List α) :=
  colLookup name f.cols

/-- The column names, in their in-memory order. -/
def Frame.names (f : Frame α) : List String :=
  f.cols.map Prod.fst

/-- `len(df)`: the number of rows, read off the first column (pandas
keeps all columns the same length). -/
def Frame.rowCount (f : Frame α) : Nat :=
  ((f.cols.head?).map (fun c => c.2.length)).getD 0

/-- `DataFile`: one CSV file held in memory.  `srcPath` and `fileName`
are set from the path the file was read from. -/
structure DataFile (α : Type) where
  srcPath : String
  fileName : String
  data : Frame α
  deriving Repr, DecidableEq

/-- `DataFile.__init__`: read the table at `srcPath` from the
file system `contents`. -/
def DataFile.load (contents : String → Frame α) (srcPath : String) : DataFile α :=
  ⟨srcPath, fileNameOf srcPath, contents srcPath⟩

/-- `DataFile.modifyData(columnName, data, write)`: when `data` is a
series (`some vals`) set it as the named column; when it is `None`
delete the column if present.  The `write` flag only persists to disk
and leaves the in-memory state untouched. -/
def DataFile.modifyData (df : DataFile α) (columnName : String)
    (data : Option (List α)) (_write : Bool) : DataFile α :=
  match data with
  | some vals => { df with data := df.data.setCol columnName vals }
  | none => { df with data := df.data.delCol columnName }

/-- `DataFile.getTimestampRange(t1, t2)`: filter the `timestamp` column
to `t1 ≤ t`, then to `t ≤ t2`, and return the surviving timestamps in
table order.  `none` models the pandas `KeyError` when there is no
`timestamp` column. -/
def DataFile.getTimestampRange (df : DataFile Int) (t1 t2 : Int) : Option (List Int) :=
  (df.data.getCol "timestamp").map
    (fun ts => (ts.filter (fun t => t1 ≤ t)).filter (fun t => t ≤ t2))

/-! ## Corpus -/

/-- Python `dict` assignment `d[k] = v` on an association list:
overwrite the entry in place when the key is present, otherwise append. -/
def dictInsert (k : String) (v : β) : List (String × β) → List (String × β)
  | [] => [(k, v)]
  | kv :: rest => if kv.1 = k then (k, v) :: rest else kv :: dictInsert k v rest

/-- Python `d[k]` / `d.get(k)` on an association list. -/
def dictLookup (k : String) : List (String × β) → Option β
  | [] => none
  | kv :: rest => if kv.1 = k then some kv.2 else dictLookup k rest

/-- `Corpus`: a root directory together with the dictionary of data
files keyed by relative path, and the cached count. -/
structure Corpus (α : Type) where
  srcRoot : String
  dataFiles : List (String × DataFile α)
  numDataFiles : Nat

/-- The helper `getRelativePath(srcRoot, srcPath)` of
`Corpus.getDataFiles`: slice off everything up to and including the
first occurrence of `srcRoot`, strip path separators from both ends and
normalise separators to `/`.  `none` models the `ValueError` of
`str.index` when `srcRoot` does not occur in `srcPath`. -/
def getRelativePath (srcRoot srcPath : String) : Option String :=
  (strIndexC srcPath.toList srcRoot.toList).map
    (fun i => ⟨sepToSlashC (stripSepC ((srcPath.toList).drop (i + srcRoot.toList.length)))⟩)

/-- The key/value pairs of the dict comprehension of `getDataFiles`:
pair every loaded data file with its relative key; a `ValueError` from
`str.index` inside `getRelativePath` propagates as `none`. -/
def collectKeys (srcRoot : String) : List (DataFile α) → Option (List (String × DataFile α))
  | [] => some []
  | d :: ds =>
    match getRelativePath srcRoot d.srcPath with
    | none => none
    | some k => (collectKeys srcRoot ds).map (fun rest => (k, d) :: rest)

/-- `Corpus.getDataFiles`: keep the paths containing `".csv"`, load
each as a `DataFile`, and key it under its relative path.  The dict
comprehension is modelled by folding `dictInsert` in discovery order. -/
def getDataFiles (contents : String → Frame α) (srcRoot : String)
    (filePaths : List String) : Option (List (String × DataFile α)) :=
  let dataSets := (filePaths.filter (fun p => strContains p ".csv")).map
    (DataFile.load contents)
  (collectKeys srcRoot dataSets).map
    (fun pairs => pairs.foldl (fun acc kv => dictInsert kv.1 kv.2 acc) [])

/-- `Corpus.__init__(srcRoot)`: discover the data files under
`srcRoot` (the collaborator `absoluteFilePaths` supplies `filePaths`)
and record their number. -/
def mkCorpus (contents : String → Frame α) (srcRoot : String)
    (filePaths : List String) : Option (Corpus α) :=
  (getDataFiles contents srcRoot filePaths).map
    (fun dfs => ⟨srcRoot, dfs, dfs.length⟩)

/-- The loop body of `Corpus.addColumn` over the key list: look each
relative path up in `data` and apply `modifyData`; a missing key raises
`KeyError`, modelled as `Except.error ()`. -/
def addColumnList (columnName : String) (data : String → Option (List α)) (write : Bool) :
    List (String × DataFile α) → Except Unit (List (String × DataFile α))
  | [] => .ok []
  | (k, df) :: rest =>
    match data k with
    | none => .error ()
    | some vals =>
      (addColumnList columnName data write rest).map
        (fun r => (k, df.modifyData columnName (some vals) write) :: r)

/-- `Corpus.addColumn(columnName, data, write)`. -/
def Corpus.addColumn (c : Corpus α) (columnName : String)
    (data : String → Option (List α)) (write : Bool) : Except Unit (Corpus α) :=
  (addColumnList columnName data write c.dataFiles).map
    (fun dfs => { c with dataFiles := dfs })

/-- `Corpus.removeColumn(columnName, write)`: apply
`modifyData(columnName)` (no data) to every indexed data file. -/
def Corpus.removeColumn (c : Corpus α) (columnName : String) (write : Bool) : Corpus α :=
  { c with dataFiles := c.dataFiles.map (fun kv => (kv.1, kv.2.modifyData columnName none write)) }

/-- `Corpus.addDataSet(relativePath, dataSet)`: deep-copy the data file
(value copy in this model), point it at `srcRoot + relativePath`, store
it under `relativePath` and refresh the count.  The immediate `write()`
is a disk effect with no bearing on the in-memory state. -/
def Corpus.addDataSet (c : Corpus α) (relativePath : String) (dataSet : DataFile α) : Corpus α :=
  let newPath := c.srcRoot ++ relativePath
  let dfs := dictInsert relativePath { dataSet with srcPath := newPath } c.dataFiles
  ⟨c.srcRoot, dfs, dfs.length⟩

/-- `newRoot` with a trailing separator appended when missing, as the
first two lines of `Corpus.copy` do. -/
def withSep (s : String) : String :=
  if s.toList.getLast? = some '/' then s else s ++ "/"

/-- `Corpus.copy(newRoot)`: `None` when the target directory already
exists; otherwise create it, build a corpus over the freshly created
(and hence empty) directory, and `addDataSet` every indexed data file
into it at its existing relative path. -/
def Corpus.copy (c : Corpus α) (newRoot : String) (isdir : String → Bool) : Option (Corpus α) :=
  let root := withSep newRoot
  if isdir root then none
  else
    -- `Corpus(newRoot)` scans the directory just created by
    -- `createPath`, which contains no files, so it starts empty.
    let newCorpus : Corpus α := ⟨root, [], 0⟩
    some (c.dataFiles.foldl (fun nc kv => nc.addDataSet kv.1 kv.2) newCorpus)

/-- `Corpus.getDataSubset(query)`: collect, in iteration order, the
entries whose relative path contains `query` as a substring. -/
def Corpus.getDataSubset (c : Corpus α) (query : String) : List (String × DataFile α) :=
  c.dataFiles.foldl
    (fun ans kv => if strContains kv.1 query then dictInsert kv.1 kv.2 ans else ans) []

/-- The counting invariant of a corpus: the cached `numDataFiles`
agrees with the size of the `dataFiles` dictionary. -/
def countInv (c : Corpus α) : Prop :=
  c.numDataFiles = c.dataFiles.length

/-! ## Column-list lemmas -/

theorem colLookup_setColAux (name : String) (vals : List α)
    (l : List (String × List α)) :
    colLookup name (setColAux name vals l) = some vals := by
  induction l with
  | nil => simp [setColAux, colLookup]
  | cons c cs ih =>
    by_cases h : c.1 = name
    · simp [setColAux, h, colLookup]
    · simp [setColAux, h, colLookup, ih]

theorem colLookup_none_forall {name : String} {l : List (String × List α)}
    (h : colLookup name l = none) : ∀ c ∈ l, c.1 ≠ name := by
  induction l with
  | nil => simp
  | cons c cs ih =>
    intro d hd
    rcases List.mem_cons.mp hd with hd | hd
    · subst hd
      intro hc
      simp [colLookup, hc] at h
    · refine ih ?_ d hd
      by_cases hc : c.1 = name
      · simp [colLookup, hc] at h
      · simpa [colLookup, hc] using h

theorem setColAux_of_absent {name : String} {l : List (String × List α)}
    (h : ∀ c ∈ l, c.1 ≠ name) (vals : List α) :
    setColAux name vals l = l ++ [(name, vals)] := by
  induction l with
  | nil => simp [setColAux]
  | cons c cs ih =>
    have hc : c.1 ≠ name := h c (by simp)
    simp only [setColAux, if_neg hc, List.cons_append, List.cons.injEq, true_and]
    exact ih (fun d hd => h d (by simp [hd]))

theorem filter_ne_of_absent {name : String} {l : List (String × List α)}
    (h : ∀ c ∈ l, c.1 ≠ name) :
    l.filter (fun c => c.1 ≠ name) = l := by
  induction l with
  | nil => simp
  | cons c cs ih =>
    have hc : c.1 ≠ name := h c (by simp)
    simp only [List.filter_cons, decide_eq_true_eq, if_pos hc]
    rw [ih (fun d hd => h d (by simp [hd]))]

/-- Setting a column always makes it readable back with the supplied
values, whether it replaces an existing column or appends a new one. -/
theorem getCol_modifyData (df : DataFile α) (name : String) (vals : List α)
    (w : Bool) : (df.modifyData name (some vals) w).data.getCol name = some vals := by
  simp only [DataFile.modifyData, Frame.getCol, Frame.setCol]
  exact colLookup_setColAux name vals df.data.cols

/-! ## Claim C1 -/

/-- C1: for every data file and non-null `values` of length equal to
the row count, `modifyData(name, values, persist)` sets `values` as the
column named `name`, so the table afterwards holds exactly those
values under `name`. -/
theorem C1_setColumn_sets_values (df : DataFile α) (name : String)
    (vals : List α) (w : Bool) (hlen : vals.length = df.data.rowCount) :
    (df.modifyData name (some vals) w).data.getCol name = some vals :=
  getCol_modifyData df name vals w

/-- A concrete two-row data file used to instantiate the theorems. -/
def dfEx : DataFile Int :=
  ⟨"/r/a.csv", "a.csv", ⟨[("timestamp", [1, 2]), ("value", [10, 20])]⟩⟩

theorem C1_witness :
    [(7 : Int), 8].length = dfEx.data.rowCount ∧
    (dfEx.modifyData "label" (some [7, 8]) false).data.getCol "label" = some [7, 8] :=
  ⟨rfl, C1_setColumn_sets_values dfEx "label" [7, 8] false rfl⟩

/-! ## Claim C8 -/

/-- C8 counterexample: adding and then removing a column whose name is
already taken (here `"value"`) does not restore the column set — the
pre-existing column is destroyed. -/
theorem C8_counterexample :
    "value" ∈ dfEx.data.names ∧
    "value" ∉ ((dfEx.modifyData "value" (some [7, 8]) false).modifyData
      "value" none false).data.names := by
  constructor
  · simp [dfEx, Frame.names]
  · simp [dfEx, Frame.names, DataFile.modifyData, Frame.setCol, Frame.delCol,
      setColAux, List.filter]

/-- C8 (amended): provided `name` is not already a column of the table,
`SetColumn(name, values)` followed by `SetColumn(name, null)` restores
the table exactly — in particular the column set — to its pre-add
state. -/
theorem C8_add_remove_inverse (df : DataFile α) (name : String) (vals : List α)
    (w w' : Bool) (hlen : vals.length = df.data.rowCount)
    (habsent : df.data.getCol name = none) :
    ((df.modifyData name (some vals) w).modifyData name none w').data = df.data := by
  have habsent' : colLookup name df.data.cols = none := habsent
  have habs := colLookup_none_forall habsent'
  simp only [DataFile.modifyData, Frame.setCol, Frame.delCol]
  have h1 : setColAux name vals df.data.cols = df.data.cols ++ [(name, vals)] :=
    setColAux_of_absent habs vals
  rw [h1, List.filter_append]
  have h2 : df.data.cols.filter (fun c => c.1 ≠ name) = df.data.cols :=
    filter_ne_of_absent habs
  simp only [decide_not] at h2
  simp [h2]

theorem C8_witness :
    ([(7 : Int), 8].length = dfEx.data.rowCount ∧ dfEx.data.getCol "label" = none) ∧
    ((dfEx.modifyData "label" (some [7, 8]) false).modifyData
      "label" none false).data = dfEx.data :=
  ⟨⟨rfl, rfl⟩, C8_add_remove_inverse dfEx "label" [7, 8] false false rfl rfl⟩

/-! ## `addColumn` lemmas -/

/-- When `data` covers every indexed key, the `addColumn` loop succeeds,
keeps the key sequence, and leaves every file with the supplied column. -/
theorem addColumnList_ok (columnName : String) (w : Bool)
    {data : String → Option (List α)} {l : List (String × DataFile α)}
    (h : ∀ kv ∈ l, (data kv.1).isSome) :
    ∃ l', addColumnList columnName data w l = .ok l' ∧
      l'.map Prod.fst = l.map Prod.fst ∧
      ∀ p ∈ l', p.2.data.getCol columnName = data p.1 := by
  induction l with
  | nil => exact ⟨[], rfl, rfl, by simp⟩
  | cons kv rest ih =>
    obtain ⟨k, df⟩ := kv
    obtain ⟨vals, hvals⟩ := Option.isSome_iff_exists.mp (h (k, df) (by simp))
    obtain ⟨r, hr, hkeys, hcols⟩ := ih (fun p hp => h p (by simp [hp]))
    refine ⟨(k, df.modifyData columnName (some vals) w) :: r, ?_, ?_, ?_⟩
    · simp [addColumnList, hvals, hr, Except.map]
    · simp [hkeys]
    · intro p hp
      rcases List.mem_cons.mp hp with rfl | hp
      · simp [getCol_modifyData, hvals]
      · exact hcols p hp

/-- The `addColumn` loop preserves the number of entries on success. -/
theorem addColumnList_length {columnName : String} {data : String → Option (List α)}
    {w : Bool} {l l' : List (String × DataFile α)}
    (h : addColumnList columnName data w l = .ok l') :
    l'.length = l.length := by
  induction l generalizing l' with
  | nil =>
    simp only [addColumnList] at h
    cases h
    rfl
  | cons kv rest ih =>
    obtain ⟨k, df⟩ := kv
    cases hd : data k with
    | none => simp [addColumnList, hd] at h
    | some vals =>
      simp only [addColumnList, hd] at h
      cases hr : addColumnList columnName data w rest with
      | error e => simp [hr, Except.map] at h
      | ok r =>
        simp only [hr, Except.map] at h
        cases h
        simp [ih hr]

/-- A key missing from `data` makes the `addColumn` loop raise. -/
theorem addColumnList_error {columnName : String} {data : String → Option (List α)}
    {w : Bool} {l : List (String × DataFile α)}
    (h : ∃ kv ∈ l, data kv.1 = none) :
    addColumnList columnName data w l = .error () := by
  induction l with
  | nil => simp at h
  | cons kv rest ih =>
    obtain ⟨k, df⟩ := kv
    obtain ⟨p, hp, hpn⟩ := h
    rcases List.mem_cons.mp hp with rfl | hp
    · simp [addColumnList, hpn]
    · cases hd : data k with
      | none => simp [addColumnList, hd]
      | some vals => simp [addColumnList, hd, ih ⟨p, hp, hpn⟩, Except.map]

/-- The `addColumn` loop reads `data` only at the keys of its list. -/
theorem addColumnList_congr {columnName : String} {w : Bool}
    {d1 d2 : String → Option (List α)} {l : List (String × DataFile α)}
    (h : ∀ kv ∈ l, d1 kv.1 = d2 kv.1) :
    addColumnList columnName d1 w l = addColumnList columnName d2 w l := by
  induction l with
  | nil => rfl
  | cons kv rest ih =>
    obtain ⟨k, df⟩ := kv
    have hk : d1 k = d2 k := h (k, df) (by simp)
    have hrest := ih (fun p hp => h p (by simp [hp]))
    simp only [addColumnList, hk, hrest]

/-! ## Claim C2 -/

/-- C2: whenever `valuesByPath` has an entry for every indexed relative
path, `Corpus.addColumn(name, valuesByPath, persist)` succeeds, keeps
the key set, and afterwards every data file of the corpus carries a
column `name` holding exactly the values supplied for its path. -/
theorem C2_addColumn_bulk (c : Corpus α) (columnName : String)
    (data : String → Option (List α)) (w : Bool)
    (h : ∀ k ∈ c.dataFiles.map Prod.fst, (data k).isSome) :
    ∃ c', c.addColumn columnName data w = .ok c' ∧
      c'.dataFiles.map Prod.fst = c.dataFiles.map Prod.fst ∧
      ∀ p ∈ c'.dataFiles, p.2.data.getCol columnName = data p.1 := by
  obtain ⟨l', hl, hkeys, hcols⟩ :=
    addColumnList_ok columnName w
      (fun kv hkv => h kv.1 (List.mem_map_of_mem _ hkv))
  exact ⟨{ c with dataFiles := l' }, by simp [Corpus.addColumn, hl, Except.map],
    hkeys, hcols⟩

/-- A second concrete data file, one row long. -/
def dfEx2 : DataFile Int :=
  ⟨"/r/b/y.csv", "y.csv", ⟨[("timestamp", [1]), ("value", [5])]⟩⟩

/-- A concrete two-file corpus mirroring the spec's concrete scenario. -/
def corpusEx : Corpus Int :=
  ⟨"/r/", [("a/x.csv", dfEx), ("b/y.csv", dfEx2)], 2⟩

/-- A value map covering both indexed paths of `corpusEx`. -/
def valsEx : String → Option (List Int) :=
  fun k => if k = "a/x.csv" then some [0, 1] else
    if k = "b/y.csv" then some [1] else none

theorem C2_witness :
    (∀ k ∈ corpusEx.dataFiles.map Prod.fst, (valsEx k).isSome) ∧
    ∃ c', corpusEx.addColumn "label" valsEx false = .ok c' ∧
      c'.dataFiles.map Prod.fst = corpusEx.dataFiles.map Prod.fst ∧
      ∀ p ∈ c'.dataFiles, p.2.data.getCol "label" = valsEx p.1 :=
  ⟨by decide, C2_addColumn_bulk corpusEx "label" valsEx false (by decide)⟩

/-! ## Claim C4 -/

/-- C4: `Corpus.addColumn` fails with the `KeyError`-class error
(`Except.error`, surfaced to the caller, never suppressed) whenever
some indexed relative path has no entry in the value map. -/
theorem C4_addColumn_missing_key (c : Corpus α) (columnName : String)
    (data : String → Option (List α)) (w : Bool)
    (h : ∃ k ∈ c.dataFiles.map Prod.fst, data k = none) :
    c.addColumn columnName data w = .error () := by
  obtain ⟨k, hk, hkn⟩ := h
  obtain ⟨kv, hkv, rfl⟩ := List.mem_map.mp hk
  simp [Corpus.addColumn, addColumnList_error ⟨kv, hkv, hkn⟩, Except.map]

/-- A value map missing the `"b/y.csv"` entry of `corpusEx`. -/
def valsMissing : String → Option (List Int) :=
  fun k => if k = "a/x.csv" then some [0, 1] else none

theorem C4_witness :
    (∃ k ∈ corpusEx.dataFiles.map Prod.fst, valsMissing k = none) ∧
    corpusEx.addColumn "label" valsMissing false = .error () :=
  ⟨by decide, C4_addColumn_missing_key corpusEx "label" valsMissing false (by decide)⟩

/-! ## Claim C10 -/

/-- C10: `Corpus.addColumn` reads the value map only at the indexed
relative paths — two maps agreeing on every indexed path produce the
same outcome, so entries under unindexed keys are ignored and cause no
error. -/
theorem C10_addColumn_extensional (c : Corpus α) (columnName : String)
    (d1 d2 : String → Option (List α)) (w : Bool)
    (h : ∀ k ∈ c.dataFiles.map Prod.fst, d1 k = d2 k) :
    c.addColumn columnName d1 w = c.addColumn columnName d2 w := by
  unfold Corpus.addColumn
  rw [addColumnList_congr (fun kv hkv => h kv.1 (List.mem_map_of_mem _ hkv))]

/-- `valsEx` with an extra entry under a key no corpus path matches. -/
def valsExtra : String → Option (List Int) :=
  fun k => if k = "unindexed/z.csv" then some [9] else valsEx k

/-! ## Dictionary lemmas -/

theorem dictLookup_dictInsert_self (k : String) (v : β) (l : List (String × β)) :
    dictLookup k (dictInsert k v l) = some v := by
  induction l with
  | nil => simp [dictInsert, dictLookup]
  | cons kv rest ih =>
    by_cases h : kv.1 = k
    · simp [dictInsert, dictLookup, h]
    · simp [dictInsert, dictLookup, h, ih]

theorem dictLookup_dictInsert_ne {k k' : String} (h : k' ≠ k) (v : β)
    (l : List (String × β)) :
    dictLookup k' (dictInsert k v l) = dictLookup k' l := by
  induction l with
  | nil => simp [dictInsert, dictLookup, Ne.symm h]
  | cons kv rest ih =>
    by_cases hk : kv.1 = k
    · subst hk
      simp [dictInsert, dictLookup, Ne.symm h]
    · by_cases hk' : kv.1 = k'
      · simp [dictInsert, dictLookup, hk, hk', h]
      · simp [dictInsert, dictLookup, hk, hk', ih]

theorem dictInsert_of_absent {k : String} {l : List (String × β)}
    (h : dictLookup k l = none) (v : β) :
    dictInsert k v l = l ++ [(k, v)] := by
  induction l with
  | nil => simp [dictInsert]
  | cons kv rest ih =>
    by_cases hk : kv.1 = k
    · simp [dictLookup, hk] at h
    · simp only [dictLookup, if_neg hk] at h
      simp [dictInsert, hk, ih h]

theorem dictLookup_append_none {k : String} {l1 : List (String × β)}
    (h : dictLookup k l1 = none) (l2 : List (String × β)) :
    dictLookup k (l1 ++ l2) = dictLookup k l2 := by
  induction l1 with
  | nil => simp
  | cons kv rest ih =>
    by_cases hk : kv.1 = k
    · simp [dictLookup, hk] at h
    · simp only [dictLookup, if_neg hk] at h
      simp [dictLookup, hk, ih h]

/-- In an association list with distinct keys, lookup retrieves exactly
the stored pair. -/
theorem dictLookup_of_mem {l : List (String × β)} {k : String} {v : β}
    (hnd : (l.map Prod.fst).Nodup) (h : (k, v) ∈ l) :
    dictLookup k l = some v := by
  induction l with
  | nil => simp at h
  | cons kv rest ih =>
    simp only [List.map_cons, List.nodup_cons, List.mem_map] at hnd
    rcases List.mem_cons.mp h with rfl | h
    · simp [dictLookup]
    · have hk : kv.1 ≠ k := fun hk =>
        hnd.1 ⟨(k, v), h, by simp [hk]⟩
      simp [dictLookup, hk, ih hnd.2 h]

/-! ## Range-query lemmas -/

theorem filter_and_filter (p q : α → Bool) (l : List α) :
    (l.filter p).filter q = l.filter (fun t => p t && q t) := by
  induction l with
  | nil => rfl
  | cons x xs ih =>
    by_cases hp : p x <;> by_cases hq : q x <;>
      simp [List.filter_cons, hp, hq, ih]

/-- In a strictly ascending list, the elements `≤ tb` form an initial
segment. -/
theorem filter_le_initialSegment (tb : Int) {xs : List Int}
    (hs : List.Pairwise (· < ·) xs) :
    ∃ post, xs = xs.filter (fun t => decide (t ≤ tb)) ++ post := by
  induction xs with
  | nil => exact ⟨[], rfl⟩
  | cons x xs ih =>
    rcases List.pairwise_cons.mp hs with ⟨hx, hxs⟩
    by_cases hxb : x ≤ tb
    · obtain ⟨post, hpost⟩ := ih hxs
      refine ⟨post, ?_⟩
      simp only [List.filter_cons, decide_eq_true_eq, if_pos hxb, List.cons_append]
      exact congrArg (x :: ·) hpost
    · refine ⟨x :: xs, ?_⟩
      have hnil : xs.filter (fun t => decide (t ≤ tb)) = [] :=
        List.filter_eq_nil_iff.mpr (fun y hy => by
          simp only [decide_eq_true_eq]
          intro hyb
          exact hxb (le_trans (le_of_lt (hx y hy)) hyb))
      simp [List.filter_cons, hxb, hnil]

/-- In a strictly ascending list, the elements inside `[ta, tb]` form a
contiguous run. -/
theorem filter_interval_contiguous {ta tb : Int} {ts : List Int}
    (hs : List.Pairwise (· < ·) ts) :
    ∃ pre post,
      ts = pre ++ ts.filter (fun t => decide (ta ≤ t) && decide (t ≤ tb)) ++ post := by
  induction ts with
  | nil => exact ⟨[], [], rfl⟩
  | cons x xs ih =>
    rcases List.pairwise_cons.mp hs with ⟨hx, hxs⟩
    by_cases hta : ta ≤ x
    · by_cases htb : x ≤ tb
      · have hcongr : xs.filter (fun t => decide (ta ≤ t) && decide (t ≤ tb))
            = xs.filter (fun t => decide (t ≤ tb)) :=
          List.filter_congr (fun y hy => by
            simp only [Bool.and_eq_true, decide_eq_true_eq, Bool.and_iff_right_iff_imp,
              decide_eq_true_eq]
            intro _
            exact le_of_lt (lt_of_le_of_lt hta (hx y hy)))
        obtain ⟨post, hpost⟩ := filter_le_initialSegment tb hxs
        refine ⟨[], post, ?_⟩
        have hcond : (decide (ta ≤ x) && decide (x ≤ tb)) = true := by
          simp [hta, htb]
        rw [List.filter_cons, if_pos hcond, hcongr, List.nil_append, List.cons_append]
        exact congrArg (x :: ·) hpost
      · have hnil : (x :: xs).filter (fun t => decide (ta ≤ t) && decide (t ≤ tb)) = [] :=
          List.filter_eq_nil_iff.mpr (fun y hy => by
            simp only [Bool.and_eq_true, decide_eq_true_eq, not_and]
            intro _ hyb
            rcases List.mem_cons.mp hy with rfl | hy
            · exact htb hyb
            · exact htb (le_trans (le_of_lt (hx y hy)) hyb))
        exact ⟨[], x :: xs, by simp [hnil]⟩
    · obtain ⟨pre, post, hsplit⟩ := ih hxs
      refine ⟨x :: pre, post, ?_⟩
      simp only [List.filter_cons, decide_eq_true_eq, Bool.and_eq_true]
      rw [if_neg (by simp [hta])]
      simpa [List.cons_append] using congrArg (x :: ·) hsplit

/-! ## Claim C3 -/

/-- C3: on a data file whose `timestamp` column is strictly ascending,
`getTimestampRange(ta, tb)` returns exactly the timestamps `t` with
`ta ≤ t ≤ tb`, in table order; that selection is a contiguous run of
the column, and it is empty when `ta > tb` (and when nothing lies in
the range, since it is exactly the filter).  The embedding is pure:
the call constructs only the returned list, leaving the data file
unchanged. -/
theorem C3_timestamp_range (df : DataFile Int) (ta tb : Int) (ts : List Int)
    (hts : df.data.getCol "timestamp" = some ts)
    (hsorted : List.Pairwise (· < ·) ts) :
    df.getTimestampRange ta tb =
        some (ts.filter (fun t => decide (ta ≤ t) && decide (t ≤ tb))) ∧
    (∃ pre post,
      ts = pre ++ ts.filter (fun t => decide (ta ≤ t) && decide (t ≤ tb)) ++ post) ∧
    (tb < ta → ts.filter (fun t => decide (ta ≤ t) && decide (t ≤ tb)) = []) := by
  refine ⟨?_, filter_interval_contiguous hsorted, ?_⟩
  · simp only [DataFile.getTimestampRange, hts, Option.map_some']
    rw [filter_and_filter]
  · intro hba
    exact List.filter_eq_nil_iff.mpr (fun y _ => by
      simp only [Bool.and_eq_true, decide_eq_true_eq, not_and]
      intro hay hyb
      omega)

theorem C3_witness :
    (dfEx.data.getCol "timestamp" = some [(1 : Int), 2] ∧
      List.Pairwise (· < ·) [(1 : Int), 2]) ∧
    (dfEx.getTimestampRange 1 1 =
        some (([(1 : Int), 2]).filter (fun t => decide ((1 : Int) ≤ t) && decide (t ≤ (1 : Int)))) ∧
      (∃ pre post,
        [(1 : Int), 2] = pre ++ ([(1 : Int), 2]).filter
          (fun t => decide ((1 : Int) ≤ t) && decide (t ≤ (1 : Int))) ++ post) ∧
      ((1 : Int) < 1 → ([(1 : Int), 2]).filter
        (fun t => decide ((1 : Int) ≤ t) && decide (t ≤ (1 : Int))) = [])) :=
  ⟨⟨rfl, by decide⟩, C3_timestamp_range dfEx 1 1 [1, 2] rfl (by decide)⟩

/-! ## Subset lemmas -/

/-- Searching for the empty string finds it at index 0. -/
theorem strIndexC_nil_needle (hay : List Char) : strIndexC hay [] = some 0 := by
  unfold strIndexC
  simp [listPrefixOfC]

/-- The empty string is a substring of everything, as with Python's
`"" in s`. -/
theorem strContains_empty (s : String) : strContains s "" = true := by
  simp [strContains, strIndexC_nil_needle]

/-- The `getDataSubset` loop, over any accumulator disjoint from the
remaining keys, appends exactly the matching entries. -/
theorem subset_foldl (q : String) (l : List (String × DataFile α)) :
    ∀ acc, (∀ p ∈ l, dictLookup p.1 acc = none) → (l.map Prod.fst).Nodup →
      l.foldl (fun ans kv => if strContains kv.1 q then dictInsert kv.1 kv.2 ans else ans) acc
        = acc ++ l.filter (fun kv => strContains kv.1 q) := by
  induction l with
  | nil => intro acc _ _; simp
  | cons kv rest ih =>
    intro acc hdisj hnd
    obtain ⟨k, v⟩ := kv
    simp only [List.map_cons, List.nodup_cons, List.mem_map] at hnd
    have hknot : ∀ p ∈ rest, p.1 ≠ k := fun p hp hpk =>
      hnd.1 ⟨p, hp, hpk⟩
    have hdisj' : ∀ p ∈ rest, dictLookup p.1 (acc ++ [(k, v)]) = none := by
      intro p hp
      rw [dictLookup_append_none (hdisj p (by simp [hp])) [(k, v)]]
      simp [dictLookup, Ne.symm (hknot p hp)]
    by_cases hq : strContains k q
    · have hstep : dictInsert k v acc = acc ++ [(k, v)] :=
        dictInsert_of_absent (hdisj (k, v) (by simp)) v
      rw [List.foldl_cons]
      simp only [hq, if_pos, hstep]
      rw [ih (acc ++ [(k, v)]) hdisj' hnd.2]
      simp [List.filter_cons, hq, List.append_assoc]
    · rw [List.foldl_cons]
      simp only [hq, Bool.false_eq_true, if_neg, not_false_iff]
      rw [ih acc (fun p hp => hdisj p (by simp [hp])) hnd.2]
      simp [List.filter_cons, hq]

/-- With distinct keys, `getDataSubset` is exactly the substring filter
of the dictionary. -/
theorem getDataSubset_eq_filter (c : Corpus α) (q : String)
    (hnd : (c.dataFiles.map Prod.fst).Nodup) :
    c.getDataSubset q = c.dataFiles.filter (fun kv => strContains kv.1 q) := by
  unfold Corpus.getDataSubset
  simpa using subset_foldl q c.dataFiles [] (fun p _ => rfl) hnd

/-! ## Claim C6 -/

/-- C6: `getDataSubset(query)` returns exactly the sub-mapping of
entries whose relative path contains `query` as a substring; the empty
query returns every entry, and a query contained in no key returns the
empty mapping.  The corpus itself is left untouched: the embedding is
pure and the result is built from the existing entries. -/
theorem C6_subset_matching (c : Corpus α) (query : String)
    (hnd : (c.dataFiles.map Prod.fst).Nodup) :
    c.getDataSubset query = c.dataFiles.filter (fun kv => strContains kv.1 query) ∧
    c.getDataSubset "" = c.dataFiles ∧
    ((∀ kv ∈ c.dataFiles, strContains kv.1 query = false) →
      c.getDataSubset query = []) := by
  refine ⟨getDataSubset_eq_filter c query hnd, ?_, ?_⟩
  · rw [getDataSubset_eq_filter c "" hnd]
    exact List.filter_eq_self.mpr (fun kv _ => strContains_empty kv.1)
  · intro hnone
    rw [getDataSubset_eq_filter c query hnd]
    exact List.filter_eq_nil_iff.mpr (fun kv hkv => by simp [hnone kv hkv])

theorem C6_witness :
    (corpusEx.dataFiles.map Prod.fst).Nodup ∧
    (corpusEx.getDataSubset "a/" =
        corpusEx.dataFiles.filter (fun kv => strContains kv.1 "a/") ∧
      corpusEx.getDataSubset "" = corpusEx.dataFiles ∧
      ((∀ kv ∈ corpusEx.dataFiles, strContains kv.1 "a/" = false) →
        corpusEx.getDataSubset "a/" = [])) :=
  ⟨by decide, C6_subset_matching corpusEx "a/" (by decide)⟩

/-! ## Copy lemmas -/

theorem dictLookup_addDataSet_self (c : Corpus α) (k : String) (d : DataFile α) :
    dictLookup k (c.addDataSet k d).dataFiles =
      some { d with srcPath := c.srcRoot ++ k } := by
  simp [Corpus.addDataSet, dictLookup_dictInsert_self]

theorem dictLookup_addDataSet_ne {k k' : String} (h : k' ≠ k) (c : Corpus α)
    (d : DataFile α) :
    dictLookup k' (c.addDataSet k d).dataFiles = dictLookup k' c.dataFiles := by
  simp [Corpus.addDataSet, dictLookup_dictInsert_ne h]

theorem dictLookup_foldl_addDataSet_of_absent {k : String}
    {l : List (String × DataFile α)} (h : ∀ p ∈ l, p.1 ≠ k) (acc : Corpus α) :
    dictLookup k (l.foldl (fun nc p => nc.addDataSet p.1 p.2) acc).dataFiles
      = dictLookup k acc.dataFiles := by
  induction l generalizing acc with
  | nil => rfl
  | cons kv rest ih =>
    rw [List.foldl_cons, ih (fun p hp => h p (by simp [hp]))]
    exact dictLookup_addDataSet_ne (Ne.symm (h kv (by simp))) acc kv.2

/-- Folding `addDataSet` over entries with distinct keys stores, for
every entry, a data file with the same table under the same key. -/
theorem foldl_addDataSet_lookup {l : List (String × DataFile α)}
    (hnd : (l.map Prod.fst).Nodup) (acc : Corpus α) :
    ∀ kv ∈ l, ∃ df', dictLookup kv.1
        (l.foldl (fun nc p => nc.addDataSet p.1 p.2) acc).dataFiles = some df' ∧
      df'.data = kv.2.data := by
  induction l generalizing acc with
  | nil => simp
  | cons hd rest ih =>
    simp only [List.map_cons, List.nodup_cons, List.mem_map] at hnd
    intro kv hkv
    rcases List.mem_cons.mp hkv with rfl | hkv
    · rw [List.foldl_cons]
      have hrest : ∀ p ∈ rest, p.1 ≠ kv.1 := fun p hp hpk => hnd.1 ⟨p, hp, hpk⟩
      rw [dictLookup_foldl_addDataSet_of_absent hrest (acc.addDataSet kv.1 kv.2)]
      exact ⟨{ kv.2 with srcPath := acc.srcRoot ++ kv.1 },
        dictLookup_addDataSet_self acc kv.1 kv.2, rfl⟩
    · rw [List.foldl_cons]
      exact ih hnd.2 (acc.addDataSet hd.1 hd.2) kv hkv

/-! ## Claim C5 -/

/-- C5: `copy(newRoot)` on an already-existing target directory yields
the failed (`none`) result and builds no corpus; on a fresh target it
returns a corpus holding, at each indexed relative path, a copy of
that path's data file (same table contents). -/
theorem C5_copy_behaviour (c : Corpus α) (newRoot : String) (isdir : String → Bool)
    (hnd : (c.dataFiles.map Prod.fst).Nodup) :
    (isdir (withSep newRoot) = true → c.copy newRoot isdir = none) ∧
    (isdir (withSep newRoot) = false →
      ∃ c', c.copy newRoot isdir = some c' ∧
        ∀ kv ∈ c.dataFiles, ∃ df',
          dictLookup kv.1 c'.dataFiles = some df' ∧ df'.data = kv.2.data) := by
  constructor
  · intro h
    simp [Corpus.copy, h]
  · intro h
    refine ⟨c.dataFiles.foldl (fun nc kv => nc.addDataSet kv.1 kv.2)
      ⟨withSep newRoot, [], 0⟩, ?_, ?_⟩
    · simp [Corpus.copy, h]
    · exact foldl_addDataSet_lookup hnd ⟨withSep newRoot, [], 0⟩

theorem C5_witness :
    (corpusEx.dataFiles.map Prod.fst).Nodup ∧
    (((fun _ => false : String → Bool) (withSep "/new") = true →
        corpusEx.copy "/new" (fun _ => false) = none) ∧
      ((fun _ => false : String → Bool) (withSep "/new") = false →
        ∃ c', corpusEx.copy "/new" (fun _ => false) = some c' ∧
          ∀ kv ∈ corpusEx.dataFiles, ∃ df',
            dictLookup kv.1 c'.dataFiles = some df' ∧ df'.data = kv.2.data)) :=
  ⟨by decide, C5_copy_behaviour corpusEx "/new" (fun _ => false) (by decide)⟩

/-! ## Claim C9 -/

theorem countInv_foldl_addDataSet {l : List (String × DataFile α)} {acc : Corpus α}
    (h : countInv acc) :
    countInv (l.foldl (fun nc kv => nc.addDataSet kv.1 kv.2) acc) := by
  induction l generalizing acc with
  | nil => exact h
  | cons kv rest ih => exact ih rfl

/-- C9: after each public corpus operation — construction, `addColumn`,
`removeColumn`, `addDataSet`, `copy` — the cached `numDataFiles` equals
the number of entries of the `dataFiles` dictionary (`getDataSubset`
returns a plain mapping and leaves its corpus untouched, so it cannot
disturb the invariant). -/
theorem C9_count_invariant (α : Type) :
    (∀ (contents : String → Frame α) (srcRoot : String) (filePaths : List String)
        (c : Corpus α), mkCorpus contents srcRoot filePaths = some c → countInv c) ∧
    (∀ (c : Corpus α) (columnName : String) (data : String → Option (List α))
        (w : Bool) (c' : Corpus α), countInv c →
        c.addColumn columnName data w = .ok c' → countInv c') ∧
    (∀ (c : Corpus α) (columnName : String) (w : Bool), countInv c →
        countInv (c.removeColumn columnName w)) ∧
    (∀ (c : Corpus α) (relativePath : String) (d : DataFile α),
        countInv (c.addDataSet relativePath d)) ∧
    (∀ (c : Corpus α) (newRoot : String) (isdir : String → Bool) (c' : Corpus α),
        c.copy newRoot isdir = some c' → countInv c') := by
  refine ⟨?_, ?_, ?_, ?_, ?_⟩
  · intro contents srcRoot filePaths c h
    unfold mkCorpus at h
    cases hdf : getDataFiles contents srcRoot filePaths with
    | none => rw [hdf] at h; cases h
    | some dfs =>
      rw [hdf] at h
      cases h
      rfl
  · intro c columnName data w c' hinv h
    unfold Corpus.addColumn at h
    cases hl : addColumnList columnName data w c.dataFiles with
    | error e => rw [hl] at h; cases h
    | ok l' =>
      rw [hl] at h
      cases h
      unfold countInv at hinv ⊢
      simp only []
      rw [addColumnList_length hl]
      exact hinv
  · intro c columnName w hinv
    unfold countInv at hinv ⊢
    simpa [Corpus.removeColumn] using hinv
  · intro c relativePath d
    rfl
  · intro c newRoot isdir c' h
    unfold Corpus.copy at h
    by_cases hdir : isdir (withSep newRoot) = true
    · simp [hdir] at h
    · simp only [hdir, if_neg, Bool.not_eq_true] at h
      cases h
      exact countInv_foldl_addDataSet rfl

theorem C9_witness :
    countInv (corpusEx.addDataSet "c/z.csv" dfEx) ∧
    countInv (corpusEx.removeColumn "value" false) :=
  ⟨(C9_count_invariant Int).2.2.2.1 corpusEx "c/z.csv" dfEx,
   (C9_count_invariant Int).2.2.1 corpusEx "value" false rfl⟩

theorem C10_witness :
    (∀ k ∈ corpusEx.dataFiles.map Prod.fst, valsEx k = valsExtra k) ∧
    corpusEx.addColumn "label" valsEx false = corpusEx.addColumn "label" valsExtra false :=
  ⟨by decide, C10_addColumn_extensional corpusEx "label" valsEx valsExtra false (by decide)⟩

/-! ## Discovery lemmas -/

/-- `listSuffixOfC needle hay`: `needle` is a final segment of `hay`. -/
def listSuffixOfC (needle hay : List Char) : Bool :=
  listPrefixOfC needle.reverse hay.reverse

/-- Modelled from the spec: the eligible-file criterion as the spec
words it — the file's *name* matches a fixed *suffix* filter, the
tabular-data extension `.csv`.  Compared against the code's criterion,
which is `".csv" in path`, a substring test on the whole path. -/
def specEligible (path : String) : Bool :=
  listSuffixOfC ".csv".toList (fileNameOf path).toList

/-- The normalised relative key of an absolute path lying directly
under `srcRoot`: drop the root, strip separators at both ends,
normalise separators to forward slashes. -/
def relKey (srcRoot p : String) : String :=
  ⟨sepToSlashC (stripSepC (p.toList.drop srcRoot.toList.length))⟩

/-- When `needle` starts `hay`, its first occurrence is at index 0. -/
theorem strIndexC_zero_of_startsWith {needle hay : List Char}
    (h : listPrefixOfC needle hay = true) :
    strIndexC hay needle = some 0 := by
  unfold strIndexC
  rw [if_pos h]

/-- Under a root that prefixes the path, `getRelativePath` computes the
normalised relative key. -/
theorem getRelativePath_of_startsWith {srcRoot p : String}
    (h : listPrefixOfC srcRoot.toList p.toList = true) :
    getRelativePath srcRoot p = some (relKey srcRoot p) := by
  unfold getRelativePath relKey
  rw [strIndexC_zero_of_startsWith h]
  simp

/-- `collectKeys` succeeds and produces the expected pairs when every
data file's path resolves to a relative key. -/
theorem collectKeys_eq {srcRoot : String} {ds : List (DataFile α)}
    (h : ∀ d ∈ ds, getRelativePath srcRoot d.srcPath = some (relKey srcRoot d.srcPath)) :
    collectKeys srcRoot ds = some (ds.map (fun d => (relKey srcRoot d.srcPath, d))) := by
  induction ds with
  | nil => rfl
  | cons d ds ih =>
    simp [collectKeys, h d (by simp), ih (fun d' hd' => h d' (by simp [hd']))]

/-- Folding dict insertion over pairs with distinct keys, none already
present, just appends them. -/
theorem foldl_dictInsert_eq (l : List (String × β)) :
    ∀ acc, (∀ p ∈ l, dictLookup p.1 acc = none) → (l.map Prod.fst).Nodup →
      l.foldl (fun acc kv => dictInsert kv.1 kv.2 acc) acc = acc ++ l := by
  induction l with
  | nil => intro acc _ _; simp
  | cons kv rest ih =>
    intro acc hdisj hnd
    obtain ⟨k, v⟩ := kv
    simp only [List.map_cons, List.nodup_cons, List.mem_map] at hnd
    have hknot : ∀ p ∈ rest, p.1 ≠ k := fun p hp hpk => hnd.1 ⟨p, hp, hpk⟩
    have hstep : dictInsert k v acc = acc ++ [(k, v)] :=
      dictInsert_of_absent (hdisj (k, v) (by simp)) v
    rw [List.foldl_cons]
    simp only [hstep]
    rw [ih (acc ++ [(k, v)]) (fun p hp => by
      rw [dictLookup_append_none (hdisj p (by simp [hp])) [(k, v)]]
      simp [dictLookup, Ne.symm (hknot p hp)]) hnd.2]
    simp [List.append_assoc]

/-! ## Claim C7 -/

/-- C7 counterexample: `/root/c.csv.bak` does not carry the `.csv`
extension as a suffix of its name, yet construction indexes it (under
key `c.csv.bak`) — the code tests `".csv" in path`, a substring check
on the whole path, not a fixed-suffix check on the name. -/
theorem C7_counterexample :
    (mkCorpus (fun _ => (⟨[]⟩ : Frame Int)) "/root/" ["/root/c.csv.bak"]).map
        (fun c => c.dataFiles.map Prod.fst) = some ["c.csv.bak"] ∧
    specEligible "/root/c.csv.bak" = false := by
  constructor
  · rfl
  · rfl

/-- C7 (amended): at construction, discovery indexes exactly those
files whose full path contains `".csv"` as a substring (the code's
criterion; not a suffix check on the name), and each discovered data
file is keyed under its path relative to the root directory,
normalised to forward-slash separators with leading and trailing
separators stripped. -/
theorem C7_discovery (contents : String → Frame α) (srcRoot : String)
    (filePaths : List String)
    (hpref : ∀ p ∈ filePaths, listPrefixOfC srcRoot.toList p.toList = true)
    (hnd : ((filePaths.filter (fun p => strContains p ".csv")).map
      (relKey srcRoot)).Nodup) :
    ∃ c, mkCorpus contents srcRoot filePaths = some c ∧
      c.dataFiles.map Prod.fst =
        (filePaths.filter (fun p => strContains p ".csv")).map (relKey srcRoot) ∧
      ∀ p ∈ filePaths, strContains p ".csv" = true →
        dictLookup (relKey srcRoot p) c.dataFiles = some (DataFile.load contents p) := by
  have hcollect : collectKeys srcRoot
      ((filePaths.filter (fun p => strContains p ".csv")).map (DataFile.load contents)) =
      some (((filePaths.filter (fun p => strContains p ".csv")).map
        (DataFile.load contents)).map (fun d => (relKey srcRoot d.srcPath, d))) := by
    refine collectKeys_eq (fun d hd => ?_)
    obtain ⟨p, hp, rfl⟩ := List.mem_map.mp hd
    exact getRelativePath_of_startsWith (hpref p (List.mem_filter.mp hp).1)
  have hpairs : (((filePaths.filter (fun p => strContains p ".csv")).map
      (DataFile.load contents)).map (fun d => (relKey srcRoot d.srcPath, d))) =
      (filePaths.filter (fun p => strContains p ".csv")).map
        (fun p => (relKey srcRoot p, DataFile.load contents p)) := by
    rw [List.map_map]
    rfl
  have hkeys : ((filePaths.filter (fun p => strContains p ".csv")).map
      (fun p => (relKey srcRoot p, DataFile.load contents p))).map Prod.fst =
      (filePaths.filter (fun p => strContains p ".csv")).map (relKey srcRoot) := by
    rw [List.map_map]
    rfl
  have hfold := foldl_dictInsert_eq
    ((filePaths.filter (fun p => strContains p ".csv")).map
      (fun p => (relKey srcRoot p, DataFile.load contents p)))
    [] (fun p _ => rfl) (by rw [hkeys]; exact hnd)
  refine ⟨⟨srcRoot,
    (filePaths.filter (fun p => strContains p ".csv")).map
      (fun p => (relKey srcRoot p, DataFile.load contents p)),
    ((filePaths.filter (fun p => strContains p ".csv")).map
      (fun p => (relKey srcRoot p, DataFile.load contents p))).length⟩, ?_, hkeys, ?_⟩
  · unfold mkCorpus getDataFiles
    simp only [hcollect, hpairs, Option.map_some']
    rw [hfold]
    simp
  · intro p hp hcsv
    refine dictLookup_of_mem (by rw [hkeys]; exact hnd) ?_
    exact List.mem_map.mpr ⟨p, List.mem_filter.mpr ⟨hp, by simp [hcsv]⟩, rfl⟩

theorem C7_witness :
    ((∀ p ∈ ["/r/a/x.csv", "/r/b/y.txt"],
        listPrefixOfC "/r/".toList p.toList = true) ∧
      ((["/r/a/x.csv", "/r/b/y.txt"].filter (fun p => strContains p ".csv")).map
        (relKey "/r/")).Nodup) ∧
    ∃ c, mkCorpus (fun _ => (⟨[("timestamp", [1])]⟩ : Frame Int)) "/r/"
        ["/r/a/x.csv", "/r/b/y.txt"] = some c ∧
      c.dataFiles.map Prod.fst =
        (["/r/a/x.csv", "/r/b/y.txt"].filter (fun p => strContains p ".csv")).map
          (relKey "/r/") ∧
      ∀ p ∈ ["/r/a/x.csv", "/r/b/y.txt"], strContains p ".csv" = true →
        dictLookup (relKey "/r/" p) c.dataFiles =
          some (DataFile.load (fun _ => (⟨[("timestamp", [1])]⟩ : Frame Int)) p) :=
  ⟨⟨by decide, by decide⟩,
    C7_discovery (fun _ => (⟨[("timestamp", [1])]⟩ : Frame Int)) "/r/"
      ["/r/a/x.csv", "/r/b/y.txt"] (by decide) (by decide)⟩

end NabCorpus
